import Mathlib

/-!
# Verification of the `QRenderer` renderer-plugin framework

Shallow embedding of `qiskit_metal/renderers/renderer_base/renderer_base.py`
(class `QRenderer`) and proofs about its registries, option resolution,
lifecycle and render pipeline.

Python dictionaries are modelled as ordered association lists with unique
keys (`List (String × PVal)`); Python values as the inductive `PVal`.
-/

set_option maxHeartbeats 1000000

namespace QRendererModel

/-- A Python runtime value as used by the renderer framework: scalars
(int, float, bool, str) and (nested) dicts.  Float payloads are kept as
opaque literals; the code never computes with them, it only inspects
`type(v)`. -/
inductive PVal where
  | pint : Int → PVal
  | pfloat : String → PVal
  | pbool : Bool → PVal
  | pstr : String → PVal
  | pdict : List (String × PVal) → PVal

/-- A Python dict (ordered, string-keyed). -/
abbrev PObj := List (String × PVal)

/-- Runtime type tags, the result of Python `type(v)` on the values above. -/
inductive PyType where
  | tint | tfloat | tbool | tstr | tdict
deriving DecidableEq, Repr

/-- Python `type(v)` restricted to the modelled values. -/
def typeOf : PVal → PyType
  | .pint _ => .tint
  | .pfloat _ => .tfloat
  | .pbool _ => .tbool
  | .pstr _ => .tstr
  | .pdict _ => .tdict

/-- Key lookup in an ordered dict (`d[k]` / `d.get(k)`): first binding wins. -/
def lookupKey {α : Type} : List (String × α) → String → Option α
  | [], _ => none
  | p :: d, k => if p.1 == k then some p.2 else lookupKey d k

/-- `d[k] = v` on an ordered dict: replace in place if the key exists
(keeping its position, as Python dicts do), otherwise append. -/
def setKey {α : Type} : List (String × α) → String → α → List (String × α)
  | [], k, v => [(k, v)]
  | p :: d, k, v => if p.1 == k then (k, v) :: d else p :: setKey d k v

/-- Python `{**a, **b}`: a *shallow* merge.  Keys of `a` keep their
position (with `b`'s value where both have the key); keys only in `b`
are appended in `b`'s order.  Nested dict values are replaced wholesale,
never merged. -/
def dictUnpackMerge (a b : PObj) : PObj :=
  (a.map (fun p =>
    match b.find? (fun q => q.1 == p.1) with
    | some q => (p.1, q.2)
    | none => p))
  ++ b.filter (fun q => (a.find? (fun p => p.1 == q.1)).isNone)

/-- A Python class as seen by `_gather_all_children_default_options`:
only the resolved `default_options` attribute matters.
`defaultOptionsAttr = none` models `hasattr(c, 'default_options') = False`. -/
structure PyClass where
  module : String
  clsname : String
  defaultOptionsAttr : Option PObj

/-- `QRenderer._gather_all_children_default_options`, applied to
`parents = inspect.getmro(cls)` (most-derived first, `object` last).
The loop runs over `parents[len(parents)-2::-1]`, i.e. all classes but
`object`, reversed (most general first), merging each class's
`default_options` into the accumulator with `{**acc, **child.default_options}`. -/
def gather_all_children_default_options (parents : List PyClass) : PObj :=
  ((parents.take (parents.length - 1)).reverse).foldl
    (fun acc child =>
      match child.defaultOptionsAttr with
      | some d => dictUnpackMerge acc d
      | none => acc)
    []

/-! ## Renderer classes, class-level registries and `load` -/

/-- `cls.element_extensions`-shaped data: element category → column name →
runtime type. -/
abbrev ExtTable := List (String × List (String × PyType))

/-- The class-level data of a concrete `QRenderer` subclass. -/
structure RendererClass where
  /-- `cls.name` (the renderer identity string). -/
  name : String
  /-- `cls.__module__`. -/
  module : String
  /-- `cls.__name__`. -/
  clsname : String
  /-- `cls.element_table_data`: category → column name → example value. -/
  element_table_data : List (String × PObj)
  /-- `cls.element_extensions`: category → column name → type. -/
  element_extensions : ExtTable
  /-- `inspect.getmro(cls)` (most-derived first, `object` last). -/
  mro : List PyClass

/-- `QRenderer._get_unique_class_name`. -/
def get_unique_class_name (cls : RendererClass) : String :=
  cls.module ++ "." ++ cls.clsname

/-- `QRenderer.populate_element_extentions`: for each category of
`element_table_data`, rebuild `element_extensions[category]` from scratch
as `{col: type(example) for col, example in ...}`. -/
def populate_element_extentions (cls : RendererClass) : RendererClass :=
  let ext :=
    cls.element_table_data.foldl
      (fun ext p => setKey ext p.1 (p.2.map (fun c => (c.1, typeOf c.2))))
      cls.element_extensions
  { cls with element_extensions := ext }

/-- One registered schema column: the renderer identity that owns it and
its value kind. -/
structure SchemaCol where
  owner : String
  kind : PyType
deriving DecidableEq

/-- The `QGeometryTables` schema registry: category → column name → column. -/
abbrev SchemaRegistry := List (String × List (String × SchemaCol))

/-- Modelled from the spec: `QGeometryTables.add_renderer_extension` is not
among the provided source files.  Spec §4.3:
`Register(renderer_identity, schema_extension)` records
`schema[category][column_name] = kind` for every declared column, failing
with `SchemaCollision` when a column of that category is already claimed by
a *different* renderer identity. -/
def add_renderer_extension (reg : SchemaRegistry) (owner : String)
    (ext : ExtTable) : Except String SchemaRegistry :=
  ext.foldlM
    (fun reg cat =>
      cat.2.foldlM
        (fun reg col =>
          let cols := (lookupKey reg cat.1).getD []
          match lookupKey cols col.1 with
          | some sc =>
            if sc.owner ≠ owner then
              .error "SchemaCollision"
            else
              .ok (setKey reg cat.1 (setKey cols col.1 ⟨owner, col.2⟩))
          | none => .ok (setKey reg cat.1 (setKey cols col.1 ⟨owner, col.2⟩)))
        reg)
    reg

/-- The process-wide state touched by `QRenderer.load`. -/
structure LoadState where
  /-- `QRenderer.__loaded_renderers__` (a set of names). -/
  loadedRenderers : List String
  /-- The `QGeometryTables` schema registry (spec-modelled collaborator). -/
  schema : SchemaRegistry
  /-- How many times `QGeometryTables.add_renderer_extension` has been
  invoked (event trace). -/
  addExtensionCalls : Nat
  /-- Warnings printed so far. -/
  warnings : List String

/-- `QRenderer.load`.  Note the source only *prints* a warning when the
name is already loaded — it does not return early: it still re-runs
`populate_element_extentions` and `add_renderer_extension`. -/
def load (cls : RendererClass) (st : LoadState) :
    Except String (RendererClass × LoadState × Bool) :=
  let name := cls.name
  let st :=
    if st.loadedRenderers.contains name then
      { st with warnings := st.warnings ++
          ["Warning: Renderer name=" ++ name ++ " already loaded. Doing nothing."] }
    else st
  let cls := populate_element_extentions cls
  let st := { st with addExtensionCalls := st.addExtensionCalls + 1 }
  match add_renderer_extension st.schema name cls.element_extensions with
  | .error e => .error e
  | .ok schema =>
    let st := { st with schema := schema }
    let st :=
      if st.loadedRenderers.contains name then st
      else { st with loadedRenderers := st.loadedRenderers ++ [name] }
    .ok (cls, st, true)

/-! ## Designs, template options and option resolution -/

/-- The design collaborator surface consumed by `QRenderer`: the
template-option store and the `is_design` capability check. -/
structure Design where
  /-- `design.template_options`: renderer identity key → stored template. -/
  template_options : List (String × PObj)
  /-- Whether `is_design(design)` holds. -/
  is_design : Bool

/-- `QRenderer._register_class_with_design`: write the template entry only
if the key is absent ("do not overwrite"); an empty or missing
`render_template` (Python falsy) is replaced by the gathered defaults.
The stored entry is a `deepcopy`, modelled here by value semantics. -/
def register_class_with_design (cls : RendererClass) (design : Design)
    (template_key : String) (render_template : Option PObj) : Design :=
  if (lookupKey design.template_options template_key).isNone then
    let rt : PObj :=
      match render_template with
      | none => gather_all_children_default_options cls.mro
      | some t =>
        if t.isEmpty then gather_all_children_default_options cls.mro else t
    { design with
        template_options := setKey design.template_options template_key rt }
  else design

/-- `QRenderer.get_template_options`: resolve the template key, register
the template if absent, then return a deep copy (value) of the stored
entry.  An entry that is somehow still missing autovivifies to an empty
dict (addict semantics). -/
def get_template_options (cls : RendererClass) (design : Design)
    (render_template : Option PObj) (template_key : Option String) :
    Design × PObj :=
  let key := template_key.getD (get_unique_class_name cls)
  let design :=
    if (lookupKey design.template_options key).isNone then
      register_class_with_design cls design key render_template
    else design
  (design, (lookupKey design.template_options key).getD [])

/-- Modelled from the spec: the deep-merge `update` of the `Dict` (addict)
class used for `self.options` is not among the provided source files.
Spec §3 deep-merge rule: "when merging B into A, for every key in B — if
both A and B have a nested OptionsModel at that key, merge recursively;
otherwise B's value replaces A's." -/
def addictUpdate (a : PObj) : PObj → PObj
  | [] => a
  | (k, v) :: rest =>
    let a' :=
      match lookupKey a k, v with
      | some (.pdict da), .pdict vb => setKey a k (.pdict (addictUpdate da vb))
      | _, _ => setKey a k v
    addictUpdate a' rest

/-! ## Renderer instances: lifecycle, options, pipeline -/

/-- The per-instance state of a `QRenderer`. -/
structure RInst where
  /-- `self.status`. -/
  status : String
  /-- `self.initiated` (the one-shot latch). -/
  initiated : Bool
  /-- Number of `self._initate_renderer()` invocations (event count). -/
  hookCalls : Nat
  /-- `self._options`. -/
  options : PObj
  /-- Event trace (hook/render events, for ordering claims). -/
  trace : List String

/-- `QRenderer.initate`: skip when the latch is set and `re_initiate` is
false; otherwise set the latch and run the one-time setup hook. -/
def initate (self : RInst) (re_initiate : Bool) : RInst × Bool :=
  if !re_initiate && self.initiated then (self, false)
  else
    ({ self with
        initiated := true
        hookCalls := self.hookCalls + 1
        trace := self.trace ++ ["_initate_renderer"] }, true)

/-- `QRenderer.update_options`: merge the resolved template into
`self.options`, then merge the user's `render_options` on top (skipped
when falsy). -/
def update_options (cls : RendererClass) (self : RInst) (design : Design)
    (render_options render_template : Option PObj) : Design × RInst :=
  let res := get_template_options cls design render_template none
  let design := res.1
  let self := { self with options := addictUpdate self.options res.2 }
  let self :=
    match render_options with
    | some ro =>
      if ro.isEmpty then self
      else { self with options := addictUpdate self.options ro }
    | none => self
  (design, self)

/-- `QRenderer.__init__`.  Sets `status = 'Not Init'`, asserts
`is_design(design)` (raising `AssertionError` before any registry or
design mutation), optionally runs `initate()`, registers the instance in
`QRenderer.__instantiated_renderers__`, seeds `self._options` and runs
`update_options`, and finally sets `status = 'Init Completed'`.
The registry holds the object itself, so it is recorded here with the
instance's state at the end of `__init__`. -/
def qrInit (cls : RendererClass) (instantiated : List (String × RInst))
    (design : Design) (initiate : Bool)
    (render_template render_options : Option PObj) :
    List (String × RInst) × Design × Except String RInst :=
  let self : RInst :=
    { status := "Not Init", initiated := false, hookCalls := 0,
      options := [], trace := [] }
  if !design.is_design then (instantiated, design, .error "AssertionError")
  else
    let self := if initiate then (QRendererModel.initate self false).1 else self
    let res := update_options cls self design render_options render_template
    let design := res.1
    let self := { res.2 with status := "Init Completed" }
    (setKey instantiated cls.name self, design, .ok self)

/-- `QRenderer.get_renderer`: the two diagnostic `print`s do not change
the result; `__instantiated_renderers__[name]` returns the tracked
instance or raises `KeyError`. -/
def get_renderer (instantiated : List (String × RInst)) (name : String) :
    Except String RInst :=
  match lookupKey instantiated name with
  | some r => .ok r
  | none => .error "KeyError"

/-- `QRenderer.render_design`: `initate()`, then `render_chips()`, then
`render_components()`.  The two hooks are abstract (must-override)
capabilities of the concrete backend; in the base class both raise
`NotImplementedError`. -/
def render_design (renderChips renderComponents : RInst → Except String RInst)
    (self : RInst) : Except String RInst :=
  let self := (initate self false).1
  match renderChips self with
  | .error e => .error e
  | .ok self =>
    match renderComponents self with
    | .error e => .error e
    | .ok self => .ok self

/-- The base-class `render_chips` / `render_components` bodies: they raise
`NotImplementedError`. -/
def notImplementedHook : RInst → Except String RInst :=
  fun _ => .error "NotImplementedError"

/-! ## Concrete fixtures (used by witnesses and counterexamples) -/

/-- Python's `object` root class. -/
def clsObject : PyClass := ⟨"builtins", "object", none⟩

/-- The abstract `QRenderer` base class: it declares no `default_options`. -/
def clsQRenderer : PyClass :=
  ⟨"qiskit_metal.renderers.renderer_base.renderer_base", "QRenderer", none⟩

/-- Defaults declared by class `A`: `{x: 1, y: {a: 1}}`. -/
def optsA : PObj := [("x", .pint 1), ("y", .pdict [("a", .pint 1)])]

/-- Defaults declared by subclass `B`: `{y: {b: 2}, z: 3}`. -/
def optsB : PObj := [("y", .pdict [("b", .pint 2)]), ("z", .pint 3)]

/-- Class `A`, a direct `QRenderer` subclass. -/
def clsAPy : PyClass := ⟨"m", "A", some optsA⟩

/-- Class `B`, subclass of `A`. -/
def clsBPy : PyClass := ⟨"m", "B", some optsB⟩

/-- `inspect.getmro(B)` for the single-inheritance chain
`B <: A <: QRenderer <: object`. -/
def mroB : List PyClass := [clsBPy, clsAPy, clsQRenderer, clsObject]

/-- What the claim expects from a deep merge of `A`'s and `B`'s defaults:
`{x: 1, y: {a: 1, b: 2}, z: 3}`. -/
def claimedDeepMerge : PObj :=
  [("x", .pint 1), ("y", .pdict [("a", .pint 1), ("b", .pint 2)]), ("z", .pint 3)]

/-- Length of the dict stored under key `"y"` (a separating observation). -/
def yLen (d : PObj) : Nat :=
  match lookupKey d "y" with
  | some (.pdict l) => l.length
  | _ => 0

/-- A concrete renderer class `B` with identity `"gds"` and one
element-table category. -/
def gdsCls : RendererClass :=
  { name := "gds"
    module := "m"
    clsname := "B"
    element_table_data :=
      [("path", [("width", .pfloat "1.0"), ("material", .pstr "Si")])]
    element_extensions := []
    mro := mroB }

/-- Fresh process state: nothing loaded, empty schema registry. -/
def st0 : LoadState := ⟨[], [], 0, []⟩

/-- A fresh design satisfying the capability contract. -/
def design0 : Design := ⟨[], true⟩

/-- An argument failing the `is_design` capability check. -/
def designBad : Design := ⟨[], false⟩

/-- A stored template entry for `gdsCls`'s key `"m.B"`. -/
def tmplStored : PObj := [("size", .pstr "30um")]

/-- A design whose template store already holds an entry for `"m.B"`. -/
def designT : Design := ⟨[("m.B", tmplStored)], true⟩

/-- A different template supplied by a later caller. -/
def otherTemplate : PObj := [("size", .pstr "99um")]

/-- A fresh renderer instance fixture. -/
def inst0 : RInst :=
  { status := "Not Init", initiated := false, hookCalls := 0,
    options := [], trace := [] }

/-- A chip-rendering hook that records one trace event. -/
def chipsHook : RInst → Except String RInst :=
  fun s => .ok { s with trace := s.trace ++ ["render_chips"] }

/-- A component-rendering hook that records one trace event. -/
def componentsHook : RInst → Except String RInst :=
  fun s => .ok { s with trace := s.trace ++ ["render_components"] }

/-- The instance state after `initate` ran and `render_chips` fired. -/
def s2Fix : RInst :=
  { status := "Not Init", initiated := true, hookCalls := 1, options := [],
    trace := ["_initate_renderer", "render_chips"] }

/-- The instance state after the full `render_design` pass. -/
def s3Fix : RInst :=
  { status := "Not Init", initiated := true, hookCalls := 1, options := [],
    trace := ["_initate_renderer", "render_chips", "render_components"] }

/-! ## Reference-semantics (heap) model for option aliasing

`QRenderer.get_template_options` hands every caller
`deepcopy(Dict(design.template_options[key]))`, and `update_options` merges
that copy (and then `render_options`) into the instance's own `Dict`.
Whether the instance's options can alias the stored template is a question
about Python object references, so it is modelled here with an explicit
heap of dict objects. -/

/-- A heap node: an immutable scalar (payload opaque) or a dict object
whose entries reference other nodes. -/
inductive HNode where
  | scalar : String → HNode
  | obj : List (String × Nat) → HNode

/-- Address lookup in heap memory: first binding wins (later writes are
prepended, shadowing older ones). -/
def lookupAddr : List (Nat × HNode) → Nat → Option HNode
  | [], _ => none
  | p :: m, a => if p.1 = a then some p.2 else lookupAddr m a

/-- A heap: an allocation bound `next` and memory. -/
structure Heap where
  next : Nat
  mem : List (Nat × HNode)

/-- Read the node at an address. -/
def Heap.lookup (h : Heap) (a : Nat) : Option HNode :=
  lookupAddr h.mem a

/-- Overwrite the node at an (already allocated) address. -/
def Heap.write (h : Heap) (a : Nat) (n : HNode) : Heap :=
  ⟨h.next, (a, n) :: h.mem⟩

/-- Allocate a fresh object holding `n`, returning its address. -/
def Heap.alloc (h : Heap) (n : HNode) : Heap × Nat :=
  (⟨h.next + 1, (h.next, n) :: h.mem⟩, h.next)

/-- All addresses a node references are below `k`. -/
def nodeBound (n : HNode) (k : Nat) : Bool :=
  match n with
  | .scalar _ => true
  | .obj es => es.all (fun e => e.2 < k)

/-- A well-formed heap: every binding (and every address it references)
lies below the allocation bound `next`. -/
def Heap.closedB (h : Heap) : Bool :=
  h.mem.all (fun p => decide (p.1 < h.next) && nodeBound p.2 h.next)

/-- Reachability through dict entries: `Reaches h a b` holds when `b` can
be read from `a` by following entry references. -/
inductive Reaches (h : Heap) : Nat → Nat → Prop where
  | refl (a : Nat) : Reaches h a a
  | step {a b c : Nat} {es : List (String × Nat)} {k : String} :
      Reaches h a b → h.lookup b = some (.obj es) → (k, c) ∈ es →
      Reaches h a c

mutual

/-- Python `copy.deepcopy` on the heap: every node of the object graph is
re-allocated at a fresh address (fuel-indexed recursion). -/
def deepcopy : Nat → Heap → Nat → Option (Heap × Nat)
  | 0, _, _ => none
  | fuel + 1, h, a =>
    match h.lookup a with
    | none => none
    | some (.scalar s) => some (h.alloc (.scalar s))
    | some (.obj es) =>
      match copyEntries fuel h es with
      | none => none
      | some (h1, es') => some (h1.alloc (.obj es'))

/-- Copy each entry of a dict, threading the heap. -/
def copyEntries : Nat → Heap → List (String × Nat) →
    Option (Heap × List (String × Nat))
  | _, h, [] => some (h, [])
  | 0, _, _ :: _ => none
  | fuel + 1, h, (k, a) :: rest =>
    match deepcopy fuel h a with
    | none => none
    | some (h1, a') =>
      match copyEntries fuel h1 rest with
      | none => none
      | some (h2, rest') => some (h2, (k, a') :: rest')

end

mutual

/-- Modelled from the spec: the deep-merge `update` of the `Dict` (addict)
class is not among the provided source files.  Reference-level reading of
the spec §3 deep-merge rule: for every key of `src` — when both sides hold
a dict at that key, merge recursively in place; otherwise store `src`'s
value reference into `dst` (aliasing it, as Python assignment does). -/
def heapUpdate : Nat → Heap → Nat → Nat → Option Heap
  | 0, _, _, _ => none
  | fuel + 1, h, dst, src =>
    match h.lookup src with
    | some (.obj sents) => updEntries fuel h dst sents
    | _ => none

/-- Merge a list of (key, value-reference) pairs into the dict at `dst`. -/
def updEntries : Nat → Heap → Nat → List (String × Nat) → Option Heap
  | _, h, _, [] => some h
  | 0, _, _, _ :: _ => none
  | fuel + 1, h, dst, (k, sv) :: rest =>
    match h.lookup dst with
    | some (.obj dents) =>
      match lookupKey dents k with
      | some da =>
        match h.lookup da, h.lookup sv with
        | some (.obj _), some (.obj _) =>
          match heapUpdate fuel h da sv with
          | some h1 => updEntries fuel h1 dst rest
          | none => none
        | _, _ =>
          updEntries fuel (h.write dst (.obj (setKey dents k sv))) dst rest
      | none =>
        updEntries fuel (h.write dst (.obj (dents ++ [(k, sv)]))) dst rest
    | _ => none

end

/-- The reference-level option-resolution path of `__init__` /
`update_options` with the template entry already stored: allocate the
fresh `self._options = Dict()`, merge in
`deepcopy(Dict(design.template_options[key]))` (the `Dict(...)`
conversion only adds a second copy, which changes nothing observable),
then merge `render_options` on top when given.  (Merging an empty
`render_options` is a no-op, so the Python falsy check is not
observable here.) -/
def resolveInstanceOptions (fuel : Nat) (h : Heap) (tmpl : Nat)
    (renderOptions : Option Nat) : Option (Heap × Nat) :=
  let al := h.alloc (.obj [])
  let optsRoot := al.2
  match deepcopy fuel al.1 tmpl with
  | none => none
  | some (h1, copyA) =>
    match heapUpdate fuel h1 optsRoot copyA with
    | none => none
    | some h2 =>
      match renderOptions with
      | none => some (h2, optsRoot)
      | some r =>
        match heapUpdate fuel h2 optsRoot r with
        | none => none
        | some h3 => some (h3, optsRoot)

/-- Correctness contract of `deepcopy` at a given fuel (proved for all
fuels below): allocation grows, closedness is preserved, old bindings are
untouched, and the copy lives entirely in the fresh region. -/
def DCSpec (fuel : Nat) : Prop :=
  ∀ h a h' a', h.closedB = true → deepcopy fuel h a = some (h', a') →
    h.next ≤ h'.next ∧ h'.closedB = true ∧
    (∀ b, b < h.next → h'.lookup b = h.lookup b) ∧
    h.next ≤ a' ∧ a' < h'.next ∧
    (∀ m, Reaches h' a' m → h.next ≤ m)

/-- Correctness contract of `copyEntries` at a given fuel. -/
def CESpec (fuel : Nat) : Prop :=
  ∀ h es h' es', h.closedB = true → copyEntries fuel h es = some (h', es') →
    h.next ≤ h'.next ∧ h'.closedB = true ∧
    (∀ b, b < h.next → h'.lookup b = h.lookup b) ∧
    ∀ p ∈ es', h.next ≤ p.2 ∧ p.2 < h'.next ∧
      ∀ m, Reaches h' p.2 m → h.next ≤ m

/-- Correctness contract of `heapUpdate` at a given fuel: the allocation
bound is unchanged, closedness is preserved, only addresses reachable from
`dst` or `src` are written, and no new reachability appears beyond
`dst`'s and `src`'s object graphs. -/
def HUSpec (fuel : Nat) : Prop :=
  ∀ h dst src h', h.closedB = true → heapUpdate fuel h dst src = some h' →
    h'.next = h.next ∧ h'.closedB = true ∧
    (∀ b, ¬ Reaches h dst b → ¬ Reaches h src b → h'.lookup b = h.lookup b) ∧
    (∀ x m, Reaches h' x m →
      Reaches h x m ∨ Reaches h dst m ∨ Reaches h src m)

/-- Correctness contract of `updEntries` at a given fuel. -/
def UESpec (fuel : Nat) : Prop :=
  ∀ h dst sents h', h.closedB = true →
    (∀ p ∈ sents, p.2 < h.next) →
    updEntries fuel h dst sents = some h' →
    h'.next = h.next ∧ h'.closedB = true ∧
    (∀ b, ¬ Reaches h dst b → (∀ p ∈ sents, ¬ Reaches h p.2 b) →
      h'.lookup b = h.lookup b) ∧
    (∀ x m, Reaches h' x m →
      Reaches h x m ∨ Reaches h dst m ∨ ∃ p ∈ sents, Reaches h p.2 m)

/-- A concrete heap for the aliasing witness: address 0 holds the stored
template `{size: ref 1}`, address 1 the scalar `"30um"`. -/
def hFix : Heap :=
  ⟨2, [(0, .obj [("size", 1)]), (1, .scalar "30um")]⟩

/-- The heap produced by resolving the instance options of `hFix`'s
template (address 0) with no override. -/
def hFix2 : Heap :=
  match resolveInstanceOptions 10 hFix 0 none with
  | some t => t.1
  | none => hFix

end QRendererModel

namespace QRendererModel

theorem lookupKey_setKey_self {α : Type} (d : List (String × α)) (k : String) (v : α) :
    lookupKey (setKey d k v) k = some v := by
  induction d with
  | nil => simp [setKey, lookupKey]
  | cons p d ih =>
    by_cases h : p.1 == k <;> simp [setKey, lookupKey, h, ih]

theorem lookupKey_setKey_ne {α : Type} (d : List (String × α)) (k k' : String)
    (v : α) (h : k' ≠ k) :
    lookupKey (setKey d k' v) k = lookupKey d k := by
  induction d with
  | nil => simp [setKey, lookupKey, h]
  | cons p d ih =>
    by_cases hp : p.1 == k'
    · have : p.1 = k' := by simpa using hp
      simp [setKey, lookupKey, hp, this, h]
    · simp [setKey, lookupKey, hp, ih]

end QRendererModel

namespace QRendererModel

theorem lookupKey_foldl_setKey_not_mem (etd : List (String × PObj))
    (ext0 : ExtTable) (t : String)
    (h : t ∉ etd.map Prod.fst) :
    lookupKey
      (etd.foldl (fun ext p => setKey ext p.1 (p.2.map (fun c => (c.1, typeOf c.2)))) ext0) t
      = lookupKey ext0 t := by
  induction etd generalizing ext0 with
  | nil => rfl
  | cons p etd ih =>
    simp only [List.map_cons, List.mem_cons] at h
    push_neg at h
    rw [List.foldl_cons, ih _ h.2, lookupKey_setKey_ne _ _ _ _ (fun he => h.1 he.symm)]

theorem lookupKey_foldl_setKey (etd : List (String × PObj)) (ext0 : ExtTable)
    (t : String) (cols : PObj)
    (hnd : (etd.map Prod.fst).Nodup)
    (h : lookupKey etd t = some cols) :
    lookupKey
      (etd.foldl (fun ext p => setKey ext p.1 (p.2.map (fun c => (c.1, typeOf c.2)))) ext0) t
      = some (cols.map (fun c => (c.1, typeOf c.2))) := by
  induction etd generalizing ext0 with
  | nil => simp [lookupKey] at h
  | cons p etd ih =>
    simp only [List.map_cons, List.nodup_cons] at hnd
    rw [List.foldl_cons]
    by_cases hp : p.1 == t
    · have hpt : p.1 = t := by simpa using hp
      have hcols : some p.2 = some cols := by simpa [lookupKey, hp] using h
      have hnot : t ∉ etd.map Prod.fst := hpt ▸ hnd.1
      rw [lookupKey_foldl_setKey_not_mem _ _ _ hnot, hpt, lookupKey_setKey_self]
      cases hcols
      rfl
    · have h' : lookupKey etd t = some cols := by simpa [lookupKey, hp] using h
      exact ih _ hnd.2 h'

theorem update_options_initiated (cls : RendererClass) (self : RInst)
    (design : Design) (ro rt : Option PObj) :
    (update_options cls self design ro rt).2.initiated = self.initiated := by
  unfold update_options
  cases ro with
  | none => simp
  | some r => by_cases hr : r.isEmpty <;> simp [hr]

theorem update_options_hookCalls (cls : RendererClass) (self : RInst)
    (design : Design) (ro rt : Option PObj) :
    (update_options cls self design ro rt).2.hookCalls = self.hookCalls := by
  unfold update_options
  cases ro with
  | none => simp
  | some r => by_cases hr : r.isEmpty <;> simp [hr]

theorem update_options_status (cls : RendererClass) (self : RInst)
    (design : Design) (ro rt : Option PObj) :
    (update_options cls self design ro rt).2.status = self.status := by
  unfold update_options
  cases ro with
  | none => simp
  | some r => by_cases hr : r.isEmpty <;> simp [hr]

end QRendererModel

namespace QRendererModel

/-- C1 (counterexample): on the claim's own example hierarchy
(`A` declares `{x: 1, y: {a: 1}}`, subclass `B` declares `{y: {b: 2}, z: 3}`),
`_gather_all_children_default_options` does NOT produce the claimed deep
merge `{x: 1, y: {a: 1, b: 2}, z: 3}` — the merge is Python's shallow
`{**acc, **child.default_options}`. -/
theorem c1_counterexample :
    gather_all_children_default_options mroB ≠ claimedDeepMerge := by
  intro h
  have h1 : yLen (gather_all_children_default_options mroB) = 1 := rfl
  rw [h] at h1
  have h2 : yLen claimedDeepMerge = 2 := rfl
  rw [h2] at h1
  omega

/-- C1 (amended): gathering walks the MRO from most general to most
specific (excluding `object`) and merges each ancestor's `default_options`
with Python dict-unpacking — a *shallow* merge where the most-derived
class's value wins wholesale at overlapping top-level keys (nested dicts
replaced, not merged) and non-overlapping top-level keys from every
ancestor are preserved; concretely, gathering `B` yields
`{x: 1, y: {b: 2}, z: 3}`. -/
theorem c1_amended :
    (∀ (a b : PObj) (mA nA mB nB : String),
      gather_all_children_default_options
        [⟨mB, nB, some b⟩, ⟨mA, nA, some a⟩, clsQRenderer, clsObject] =
        dictUnpackMerge a b) ∧
    gather_all_children_default_options mroB =
      [("x", .pint 1), ("y", .pdict [("b", .pint 2)]), ("z", .pint 3)] := by
  constructor
  · intro a b mA nA mB nB
    show dictUnpackMerge (dictUnpackMerge [] a) b = dictUnpackMerge a b
    congr 1
    simp [dictUnpackMerge]
  · rfl

/-- C2: evaluating the code at the failing input — `load()` called twice
for the same renderer name.  The second call issues the warning but is NOT
a no-op: it re-runs `populate_element_extentions` and calls
`QGeometryTables.add_renderer_extension` again (`addExtensionCalls = 2`),
contradicting the claim and the code's own docstring ("Only performed
once") and message ("Doing nothing").  The loaded-renderer set and the
schema state are nevertheless unchanged, registration being
deterministic. -/
theorem c2_second_load_reregisters :
    ∃ cls1 st1 cls2 st2,
      load gdsCls st0 = .ok (cls1, st1, true) ∧
      load cls1 st1 = .ok (cls2, st2, true) ∧
      st1.addExtensionCalls = 1 ∧
      st2.addExtensionCalls = 2 ∧
      st2.warnings.length = 1 ∧
      st2.loadedRenderers = st1.loadedRenderers ∧
      st2.schema = st1.schema :=
  ⟨_, _, _, _, rfl, rfl, rfl, rfl, rfl, rfl, rfl⟩

/-- C3: when the design's template store already holds an entry under the
resolved key, `get_template_options` returns that stored value unchanged
and leaves the design's store untouched, whatever `render_template` a
later caller supplies (first writer wins). -/
theorem c3_first_writer_wins (cls : RendererClass) (design : Design)
    (rt : Option PObj) (tk : Option String) (v : PObj)
    (h : lookupKey design.template_options (tk.getD (get_unique_class_name cls))
          = some v) :
    get_template_options cls design rt tk = (design, v) := by
  simp [get_template_options, h]

/-- C3 witness: a design with `"m.B" ↦ {size: "30um"}` stored; a later
call with a different template still gets the stored value and the store
is unchanged. -/
theorem c3_witness :
    lookupKey designT.template_options "m.B" = some tmplStored ∧
    get_template_options gdsCls designT (some otherTemplate) none
      = (designT, tmplStored) :=
  ⟨rfl, c3_first_writer_wins gdsCls designT (some otherTemplate) none tmplStored rfl⟩

/-- C5 (counterexample): constructing a renderer with `initiate=False`
ends with `status = 'Init Completed'` although the `initiated` latch is
unset and `_initate_renderer` never ran — `'Init Completed'` is not
reached only through `initate`. -/
theorem c5_counterexample :
    ∃ i d self,
      qrInit gdsCls [] design0 false none none = (i, d, .ok self) ∧
      self.status = "Init Completed" ∧
      self.initiated = false ∧
      self.hookCalls = 0 :=
  ⟨_, _, _, rfl, rfl, rfl, rfl⟩

/-- C5 (amended): `__init__` always ends with `status = 'Init
Completed'`.  With `initiate=True` (the default) this coincides with the
latch set and the setup hook run exactly once; with `initiate=False` the
status still becomes `'Init Completed'` with the latch unset and the hook
never invoked. -/
theorem c5_amended (cls : RendererClass) (instantiated : List (String × RInst))
    (design : Design) (rt ro : Option PObj) (hd : design.is_design = true) :
    (∃ i1 d1 s1, qrInit cls instantiated design true rt ro = (i1, d1, .ok s1) ∧
      s1.status = "Init Completed" ∧ s1.initiated = true ∧ s1.hookCalls = 1) ∧
    (∃ i2 d2 s2, qrInit cls instantiated design false rt ro = (i2, d2, .ok s2) ∧
      s2.status = "Init Completed" ∧ s2.initiated = false ∧ s2.hookCalls = 0) := by
  unfold qrInit
  rw [hd]
  simp only [Bool.not_true, Bool.false_eq_true, if_false, ite_false]
  constructor
  · refine ⟨_, _, _, rfl, rfl, ?_, ?_⟩
    · simp [update_options_initiated, initate]
    · simp [update_options_hookCalls, initate]
  · refine ⟨_, _, _, rfl, rfl, ?_, ?_⟩
    · simp [update_options_initiated]
    · simp [update_options_hookCalls]

/-- C6: starting from an un-initiated instance, two `initate()` calls
with `re_initiate=False` run `_initate_renderer` exactly once (the second
call is a skipped no-op returning `False` and leaving the state
unchanged), while two calls with `re_initiate=True` run the hook
twice. -/
theorem c6_hook_once_unless_reinitiate (self s : RInst)
    (h : self.initiated = false) :
    ((initate (initate self false).1 false).1 = (initate self false).1 ∧
     (initate (initate self false).1 false).2 = false ∧
     (initate (initate self false).1 false).1.hookCalls = self.hookCalls + 1) ∧
    (initate (initate s true).1 true).1.hookCalls = s.hookCalls + 2 := by
  constructor
  · simp [initate, h]
  · simp [initate]

/-- C7: `get_renderer(name)` returns the tracked live instance whenever
one is registered under `name`, and fails with `KeyError` (a NotFound
outcome, not a renderer) when none is. -/
theorem c7_get_renderer (instantiated : List (String × RInst)) (name : String) :
    (∀ r, lookupKey instantiated name = some r →
      get_renderer instantiated name = .ok r) ∧
    (lookupKey instantiated name = none →
      get_renderer instantiated name = .error "KeyError") := by
  constructor
  · intro r h
    simp [get_renderer, h]
  · intro h
    simp [get_renderer, h]

/-- C7 witness: a registry holding `"gds" ↦ inst0` returns `inst0`; an
empty registry raises `KeyError`. -/
theorem c7_witness :
    get_renderer [("gds", inst0)] "gds" = .ok inst0 ∧
    get_renderer [] "hfss" = .error "KeyError" :=
  ⟨(c7_get_renderer [("gds", inst0)] "gds").1 inst0 rfl,
   (c7_get_renderer [] "hfss").2 rfl⟩

/-- C8: instantiating with a design that fails the `is_design`
capability check raises `AssertionError` and leaves the live-instance
registry and the design untouched (the class-level loaded registries are
not even reached). -/
theorem c8_not_bound_design (cls : RendererClass)
    (instantiated : List (String × RInst)) (design : Design) (i : Bool)
    (rt ro : Option PObj) (h : design.is_design = false) :
    qrInit cls instantiated design i rt ro
      = (instantiated, design, .error "AssertionError") := by
  simp [qrInit, h]

/-- C8 witness: evaluated on `designBad`. -/
theorem c8_witness :
    qrInit gdsCls [] designBad true none none
      = ([], designBad, .error "AssertionError") :=
  c8_not_bound_design gdsCls [] designBad true none none rfl

/-- C9: after `load()` has run `populate_element_extentions`, the
class's `element_extensions[category]` maps exactly the column names of
`element_table_data[category]` to the runtime type of each column's
example value; any previously declared column absent from
`element_table_data[category]` is gone, the entry being rebuilt from
scratch. -/
theorem c9_extensions_from_table_data (cls : RendererClass) (st : LoadState)
    (table : String) (cols : PObj) (cls' : RendererClass) (st' : LoadState)
    (b : Bool)
    (hnd : (cls.element_table_data.map Prod.fst).Nodup)
    (h : lookupKey cls.element_table_data table = some cols)
    (hload : load cls st = .ok (cls', st', b)) :
    lookupKey cls'.element_extensions table
      = some (cols.map (fun c => (c.1, typeOf c.2))) := by
  have hcls : cls' = populate_element_extentions cls := by
    simp only [load] at hload
    split at hload
    · exact absurd hload (by simp)
    · simp only [Except.ok.injEq, Prod.mk.injEq] at hload
      exact hload.1.symm
  subst hcls
  unfold populate_element_extentions
  exact lookupKey_foldl_setKey _ _ _ _ hnd h

/-- C9 witness: `gdsCls` declares `path.width = 1.0` and
`path.material = "Si"`; after population the extensions map `width ↦
float` and `material ↦ str` exactly. -/
theorem c9_witness :
    lookupKey (populate_element_extentions gdsCls).element_extensions "path"
      = some [("width", PyType.tfloat), ("material", PyType.tstr)] :=
  c9_extensions_from_table_data gdsCls st0 "path" _ _ _ true (by decide) rfl rfl

/-- C10: `render_design` first ensures `initate()` has run (the latch is
set afterwards), then calls `render_chips()`, then `render_components()`:
the event trace is exactly the initiation events followed by the chip
events followed by the component events. -/
theorem c10_render_order (rc rcomp : RInst → Except String RInst)
    (self s2 s3 : RInst) (tc tk : List String)
    (h2 : rc ((initate self false).1) = .ok s2)
    (ht2 : s2.trace = ((initate self false).1).trace ++ tc)
    (h3 : rcomp s2 = .ok s3)
    (ht3 : s3.trace = s2.trace ++ tk) :
    render_design rc rcomp self = .ok s3 ∧
    ((initate self false).1).initiated = true ∧
    s3.trace = self.trace ++
      (if self.initiated then [] else ["_initate_renderer"]) ++ tc ++ tk := by
  refine ⟨?_, ?_, ?_⟩
  · simp [render_design, h2, h3]
  · by_cases h : self.initiated <;> simp [initate, h]
  · rw [ht3, ht2]
    have : ((initate self false).1).trace
        = self.trace ++ (if self.initiated then [] else ["_initate_renderer"]) := by
      by_cases h : self.initiated <;> simp [initate, h]
    rw [this]

end QRendererModel

namespace QRendererModel

theorem lookup_write (h : Heap) (a b : Nat) (n : HNode) :
    (h.write a n).lookup b = if a = b then some n else h.lookup b := by
  simp [Heap.write, Heap.lookup, lookupAddr]

theorem lookup_alloc (h : Heap) (n : HNode) (b : Nat) :
    ((h.alloc n).1).lookup b = if h.next = b then some n else h.lookup b := by
  simp [Heap.alloc, Heap.lookup, lookupAddr]

theorem next_write (h : Heap) (a : Nat) (n : HNode) :
    (h.write a n).next = h.next := rfl

theorem next_alloc (h : Heap) (n : HNode) :
    ((h.alloc n).1).next = h.next + 1 := rfl

theorem lookupAddr_closed (m : List (Nat × HNode)) (nx : Nat) (a : Nat)
    (v : HNode)
    (hc : m.all (fun p => decide (p.1 < nx) && nodeBound p.2 nx) = true)
    (hl : lookupAddr m a = some v) :
    a < nx ∧ nodeBound v nx = true := by
  induction m with
  | nil => simp [lookupAddr] at hl
  | cons p m ih =>
    simp only [List.all_cons, Bool.and_eq_true, decide_eq_true_eq] at hc
    by_cases hp : p.1 = a
    · simp only [lookupAddr, hp, if_pos rfl] at hl
      cases hl
      exact ⟨hp ▸ hc.1.1, hc.1.2⟩
    · simp only [lookupAddr, hp, if_false, ite_false] at hl
      exact ih (by simpa using hc.2) hl

theorem closed_lookup (h : Heap) (a : Nat) (v : HNode)
    (hc : h.closedB = true) (hl : h.lookup a = some v) :
    a < h.next ∧ nodeBound v h.next = true :=
  lookupAddr_closed h.mem h.next a v hc hl

theorem nodeBound_mono (n : HNode) (k k' : Nat) (hk : k ≤ k')
    (hb : nodeBound n k = true) : nodeBound n k' = true := by
  cases n with
  | scalar s => rfl
  | obj es =>
    simp only [nodeBound, List.all_eq_true, decide_eq_true_eq] at hb ⊢
    exact fun e he => lt_of_lt_of_le (hb e he) hk

theorem memAll_mono (m : List (Nat × HNode)) (nx nx' : Nat) (hk : nx ≤ nx')
    (hc : m.all (fun p => decide (p.1 < nx) && nodeBound p.2 nx) = true) :
    m.all (fun p => decide (p.1 < nx') && nodeBound p.2 nx') = true := by
  simp only [List.all_eq_true, Bool.and_eq_true, decide_eq_true_eq] at hc ⊢
  exact fun p hp =>
    ⟨lt_of_lt_of_le (hc p hp).1 hk, nodeBound_mono _ _ _ hk (hc p hp).2⟩

theorem closed_write (h : Heap) (a : Nat) (n : HNode)
    (hc : h.closedB = true) (ha : a < h.next)
    (hn : nodeBound n h.next = true) : (h.write a n).closedB = true := by
  simp only [Heap.closedB, Heap.write, List.all_cons, Bool.and_eq_true,
    decide_eq_true_eq]
  exact ⟨⟨ha, hn⟩, hc⟩

theorem closed_alloc (h : Heap) (n : HNode)
    (hc : h.closedB = true) (hn : nodeBound n h.next = true) :
    ((h.alloc n).1).closedB = true := by
  simp only [Heap.closedB, Heap.alloc, List.all_cons, Bool.and_eq_true,
    decide_eq_true_eq]
  refine ⟨⟨Nat.lt_succ_self _, nodeBound_mono _ _ _ (Nat.le_succ _) hn⟩, ?_⟩
  exact memAll_mono _ _ _ (Nat.le_succ _) hc

theorem mem_setKey {α : Type} (es : List (String × α)) (k : String) (v : α)
    (q : String × α) : q ∈ setKey es k v → q ∈ es ∨ q = (k, v) := by
  induction es with
  | nil =>
    intro hq
    simpa [setKey] using hq
  | cons p es ih =>
    intro hq
    by_cases hp : p.1 == k
    · simp only [setKey, hp, if_true, ite_true, List.mem_cons] at hq
      rcases hq with hq | hq
      · exact .inr hq
      · exact .inl (List.mem_cons_of_mem _ hq)
    · simp only [setKey, hp, Bool.false_eq_true, if_false, ite_false,
        List.mem_cons] at hq
      rcases hq with hq | hq
      · exact .inl (hq ▸ List.mem_cons_self _ _)
      · rcases ih hq with hq' | hq'
        · exact .inl (List.mem_cons_of_mem _ hq')
        · exact .inr hq'

theorem lookupKey_mem {α : Type} (es : List (String × α)) (k : String)
    (v : α) (hl : lookupKey es k = some v) : (k, v) ∈ es := by
  induction es with
  | nil => simp [lookupKey] at hl
  | cons p es ih =>
    by_cases hp : p.1 == k
    · simp only [lookupKey, hp, if_true, ite_true] at hl
      cases hl
      have : p.1 = k := by simpa using hp
      exact this ▸ List.mem_cons_self _ _
    · simp only [lookupKey, hp, Bool.false_eq_true, if_false, ite_false] at hl
      exact List.mem_cons_of_mem _ (ih hl)

theorem Reaches.trans {h : Heap} {a b c : Nat}
    (h1 : Reaches h a b) (h2 : Reaches h b c) : Reaches h a c := by
  induction h2 with
  | refl => exact h1
  | step _ lk mem ih => exact .step ih lk mem

theorem reaches_child {h : Heap} {a : Nat} {es : List (String × Nat)}
    (hl : h.lookup a = some (.obj es)) {p : String × Nat} (hp : p ∈ es) :
    Reaches h a p.2 :=
  .step (.refl a) hl (by simpa using hp)

theorem reaches_lt {h : Heap} {a m : Nat} (hc : h.closedB = true)
    (hr : Reaches h a m) (ha : a < h.next) : m < h.next := by
  induction hr with
  | refl => exact ha
  | step _ lk mem ih =>
    have hb := (closed_lookup _ _ _ hc lk).2
    simp only [nodeBound, List.all_eq_true, decide_eq_true_eq] at hb
    exact hb _ mem

theorem reaches_root_cases {h : Heap} {a m : Nat} (hr : Reaches h a m) :
    m = a ∨ ∃ es, h.lookup a = some (.obj es) ∧ ∃ p ∈ es, Reaches h p.2 m := by
  induction hr with
  | refl => exact .inl rfl
  | step _ lk mem ih =>
    rename_i b c es k r
    rcases ih with hb | ⟨es', hl', p, hp, hr'⟩
    · subst hb
      exact .inr ⟨es, lk, (k, c), mem, .refl c⟩
    · exact .inr ⟨es', hl', p, hp, .step hr' lk mem⟩

theorem reaches_of_ext {h1 h2 : Heap} (hc : h1.closedB = true)
    (hpres : ∀ b, b < h1.next → h2.lookup b = h1.lookup b)
    {a : Nat} (ha : a < h1.next) {m : Nat} (hr : Reaches h2 a m) :
    Reaches h1 a m ∧ m < h1.next := by
  induction hr with
  | refl => exact ⟨.refl a, ha⟩
  | step _ lk mem ih =>
    obtain ⟨r1, hb⟩ := ih
    rw [hpres _ hb] at lk
    refine ⟨.step r1 lk mem, ?_⟩
    have hnb := (closed_lookup _ _ _ hc lk).2
    simp only [nodeBound, List.all_eq_true, decide_eq_true_eq] at hnb
    exact hnb _ mem

theorem reaches_ext_of {h1 h2 : Heap} (hc : h1.closedB = true)
    (hpres : ∀ b, b < h1.next → h2.lookup b = h1.lookup b)
    {a : Nat} (ha : a < h1.next) {m : Nat} (hr : Reaches h1 a m) :
    Reaches h2 a m := by
  induction hr with
  | refl => exact .refl a
  | step r lk mem ih =>
    rename_i b c es k
    have hb : b < h1.next := reaches_lt hc r ha
    exact .step ih ((hpres _ hb).trans lk) mem

theorem reaches_write_cases {h : Heap} {dst : Nat}
    {newEs : List (String × Nat)} {aux : Nat}
    (hch : ∀ c ∈ newEs, Reaches h dst c.2 ∨ Reaches h aux c.2) :
    ∀ x m, Reaches (h.write dst (.obj newEs)) x m →
      Reaches h x m ∨ Reaches h dst m ∨ Reaches h aux m := by
  intro x m hr
  induction hr with
  | refl => exact .inl (.refl x)
  | step _ lk mem ih =>
    rename_i b c es k r
    rw [lookup_write] at lk
    by_cases hb : dst = b
    · rw [if_pos hb] at lk
      cases lk
      rcases hch _ mem with hc' | hc'
      · exact .inr (.inl hc')
      · exact .inr (.inr hc')
    · rw [if_neg hb] at lk
      rcases ih with h' | h' | h'
      · exact .inl (.step h' lk mem)
      · exact .inr (.inl (.step h' lk mem))
      · exact .inr (.inr (.step h' lk mem))

end QRendererModel

namespace QRendererModel

theorem lookup_cons (nx : Nat) (a : Nat) (n : HNode)
    (m : List (Nat × HNode)) (b : Nat) :
    (Heap.mk nx ((a, n) :: m)).lookup b
      = if a = b then some n else lookupAddr m b := by
  simp [Heap.lookup, lookupAddr]

theorem dc_ce_spec : ∀ fuel, DCSpec fuel ∧ CESpec fuel := by
  intro fuel
  induction fuel with
  | zero =>
    constructor
    · intro h a h' a' _ hd
      simp [deepcopy] at hd
    · intro h es h' es' hc hce
      cases es with
      | nil =>
        rw [copyEntries] at hce
        simp only [Option.some.injEq, Prod.mk.injEq] at hce
        obtain ⟨rfl, rfl⟩ := hce
        exact ⟨le_refl _, hc, fun b _ => rfl, by simp⟩
      | cons p es => simp [copyEntries] at hce
  | succ fuel ih =>
    obtain ⟨ihd, ihc⟩ := ih
    constructor
    · -- DCSpec (fuel + 1)
      intro h a h' a' hc hd
      rw [deepcopy] at hd
      split at hd
      · exact absurd hd (by simp)
      · -- scalar node
        rename_i s hl
        simp only [Option.some.injEq, Prod.mk.injEq] at hd
        obtain ⟨rfl, rfl⟩ := hd
        refine ⟨Nat.le_succ _, closed_alloc _ _ hc rfl, ?_, le_refl _,
          Nat.lt_succ_self _, ?_⟩
        · intro b hb
          have hne : h.next ≠ b := by omega
          rw [lookup_cons, if_neg hne]
          rfl
        · intro m hr
          rcases reaches_root_cases hr with rfl | ⟨es₀, hl₀, p, hp, _⟩
          · exact le_refl _
          · rw [lookup_cons, if_pos rfl] at hl₀
            exact absurd hl₀ (by simp)
      · -- obj node
        rename_i es hl
        split at hd
        · exact absurd hd (by simp)
        · rename_i h1 es' hce
          simp only [Option.some.injEq, Prod.mk.injEq] at hd
          obtain ⟨rfl, rfl⟩ := hd
          obtain ⟨hn1, hc1, hp1, hent⟩ := ihc h es h1 es' hc hce
          have hbound : nodeBound (.obj es') h1.next = true := by
            simp only [nodeBound, List.all_eq_true, decide_eq_true_eq]
            exact fun e he => (hent e he).2.1
          refine ⟨le_trans hn1 (Nat.le_succ _), closed_alloc _ _ hc1 hbound,
            ?_, hn1, Nat.lt_succ_self _, ?_⟩
          · intro b hb
            have hne : h1.next ≠ b := by
              have := lt_of_lt_of_le hb hn1
              omega
            rw [lookup_cons, if_neg hne]
            exact hp1 b hb
          · intro m hr
            rcases reaches_root_cases hr with rfl | ⟨es₀, hl₀, p, hp, hr'⟩
            · exact hn1
            · rw [lookup_cons, if_pos rfl] at hl₀
              simp only [Option.some.injEq, HNode.obj.injEq] at hl₀
              subst hl₀
              have hpr := hent p hp
              have hpres : ∀ b, b < h1.next →
                  ((h1.alloc (.obj es')).1).lookup b = h1.lookup b := by
                intro b hb
                have hne : h1.next ≠ b := by omega
                rw [lookup_alloc, if_neg hne]
              have := reaches_of_ext hc1 hpres hpr.2.1 hr'
              exact hpr.2.2 m this.1
    · -- CESpec (fuel + 1)
      intro h es h' es' hc hce
      cases es with
      | nil =>
        rw [copyEntries] at hce
        simp only [Option.some.injEq, Prod.mk.injEq] at hce
        obtain ⟨rfl, rfl⟩ := hce
        exact ⟨le_refl _, hc, fun b _ => rfl, by simp⟩
      | cons p es =>
        rw [copyEntries] at hce
        split at hce
        · exact absurd hce (by simp)
        · rename_i h1 a' hdc
          split at hce
          · exact absurd hce (by simp)
          · rename_i h2 rest' hce2
            simp only [Option.some.injEq, Prod.mk.injEq] at hce
            obtain ⟨rfl, rfl⟩ := hce
            obtain ⟨hnA, hcA, hpA, haA1, haA2, hconfA⟩ :=
              ihd h p.2 h1 a' hc hdc
            obtain ⟨hnB, hcB, hpB, hentB⟩ := ihc h1 es h2 rest' hcA hce2
            refine ⟨le_trans hnA hnB, hcB, ?_, ?_⟩
            · intro b hb
              rw [hpB b (lt_of_lt_of_le hb hnA), hpA b hb]
            · intro q hq
              rcases List.mem_cons.1 hq with rfl | hq'
              · refine ⟨haA1, lt_of_lt_of_le haA2 hnB, ?_⟩
                intro m hr
                have := reaches_of_ext hcA hpB haA2 hr
                exact hconfA m this.1
              · obtain ⟨hq1, hq2, hq3⟩ := hentB q hq'
                exact ⟨le_trans hnA hq1, hq2, fun m hr =>
                  le_trans hnA (hq3 m hr)⟩

end QRendererModel

namespace QRendererModel

theorem ue_step_compose (fuel : Nat) (hue : UESpec fuel)
    (h h1 : Heap) (dst sv : Nat) (k : String) (rest : List (String × Nat))
    (_hc : h.closedB = true)
    (hsents : ∀ p ∈ (k, sv) :: rest, p.2 < h.next)
    (hn1 : h1.next = h.next)
    (hc1 : h1.closedB = true)
    (hf1 : ∀ b, ¬ Reaches h dst b → ¬ Reaches h sv b →
      h1.lookup b = h.lookup b)
    (hr1 : ∀ x m, Reaches h1 x m →
      Reaches h x m ∨ Reaches h dst m ∨ Reaches h sv m)
    (h' : Heap)
    (hrest : updEntries fuel h1 dst rest = some h') :
    h'.next = h.next ∧ h'.closedB = true ∧
    (∀ b, ¬ Reaches h dst b → (∀ p ∈ (k, sv) :: rest, ¬ Reaches h p.2 b) →
      h'.lookup b = h.lookup b) ∧
    (∀ x m, Reaches h' x m →
      Reaches h x m ∨ Reaches h dst m ∨ ∃ p ∈ (k, sv) :: rest, Reaches h p.2 m) := by
  obtain ⟨hn2, hc2, hf2, hr2⟩ := hue h1 dst rest h' hc1
    (fun p hp => hn1 ▸ hsents p (List.mem_cons_of_mem _ hp)) hrest
  refine ⟨hn2.trans hn1, hc2, ?_, ?_⟩
  · intro b hbd hbs
    have hsv : ¬ Reaches h sv b := hbs (k, sv) (List.mem_cons_self _ _)
    have hnd1 : ¬ Reaches h1 dst b := by
      intro hr
      rcases hr1 dst b hr with hx | hx | hx
      · exact hbd hx
      · exact hbd hx
      · exact hsv hx
    have hns1 : ∀ p ∈ rest, ¬ Reaches h1 p.2 b := by
      intro p hp hr
      rcases hr1 p.2 b hr with hx | hx | hx
      · exact hbs p (List.mem_cons_of_mem _ hp) hx
      · exact hbd hx
      · exact hsv hx
    rw [hf2 b hnd1 hns1, hf1 b hbd hsv]
  · intro x m hr
    rcases hr2 x m hr with hx | hx | ⟨p, hp, hx⟩
    · rcases hr1 x m hx with hy | hy | hy
      · exact .inl hy
      · exact .inr (.inl hy)
      · exact .inr (.inr ⟨(k, sv), List.mem_cons_self _ _, hy⟩)
    · rcases hr1 dst m hx with hy | hy | hy
      · exact .inr (.inl hy)
      · exact .inr (.inl hy)
      · exact .inr (.inr ⟨(k, sv), List.mem_cons_self _ _, hy⟩)
    · rcases hr1 p.2 m hx with hy | hy | hy
      · exact .inr (.inr ⟨p, List.mem_cons_of_mem _ hp, hy⟩)
      · exact .inr (.inl hy)
      · exact .inr (.inr ⟨(k, sv), List.mem_cons_self _ _, hy⟩)

theorem ue_write_branch (fuel : Nat) (hue : UESpec fuel) (h : Heap)
    (dst sv : Nat) (k : String) (rest : List (String × Nat))
    (dents newEs : List (String × Nat))
    (hc : h.closedB = true)
    (hsents : ∀ p ∈ (k, sv) :: rest, p.2 < h.next)
    (hldst : h.lookup dst = some (.obj dents))
    (hmem : ∀ q ∈ newEs, q ∈ dents ∨ q = (k, sv))
    (h' : Heap)
    (hu : updEntries fuel (h.write dst (.obj newEs)) dst rest = some h') :
    h'.next = h.next ∧ h'.closedB = true ∧
    (∀ b, ¬ Reaches h dst b → (∀ p ∈ (k, sv) :: rest, ¬ Reaches h p.2 b) →
      h'.lookup b = h.lookup b) ∧
    (∀ x m, Reaches h' x m →
      Reaches h x m ∨ Reaches h dst m ∨ ∃ p ∈ (k, sv) :: rest, Reaches h p.2 m) := by
  have hdlt := (closed_lookup _ _ _ hc hldst).1
  have hdb := (closed_lookup _ _ _ hc hldst).2
  have hbound : nodeBound (.obj newEs) h.next = true := by
    simp only [nodeBound, List.all_eq_true, decide_eq_true_eq] at hdb ⊢
    intro e he
    rcases hmem e he with h1 | h1
    · exact hdb e h1
    · rw [h1]
      exact hsents (k, sv) (List.mem_cons_self _ _)
  have hc1 := closed_write h dst _ hc hdlt hbound
  have hch : ∀ c ∈ newEs, Reaches h dst c.2 ∨ Reaches h sv c.2 := by
    intro c hcm
    rcases hmem c hcm with h1 | h1
    · exact .inl (reaches_child hldst h1)
    · rw [h1]
      exact .inr (.refl sv)
  exact ue_step_compose fuel hue h _ dst sv k rest hc hsents
    (next_write _ _ _) hc1
    (fun b hbd _ => by
      have hne : ¬ dst = b := by
        intro he
        exact hbd (he ▸ Reaches.refl dst)
      rw [lookup_write, if_neg hne])
    (reaches_write_cases hch) h' hu

theorem hu_ue_spec : ∀ fuel, HUSpec fuel ∧ UESpec fuel := by
  intro fuel
  induction fuel with
  | zero =>
    constructor
    · intro h dst src h' _ hu
      simp [heapUpdate] at hu
    · intro h dst sents h' hc _ hu
      cases sents with
      | nil =>
        rw [updEntries] at hu
        simp only [Option.some.injEq] at hu
        subst hu
        exact ⟨rfl, hc, fun b _ _ => rfl, fun x m hr => .inl hr⟩
      | cons p rest => simp [updEntries] at hu
  | succ fuel ih =>
    obtain ⟨ihu, ihe⟩ := ih
    have hUE : UESpec (fuel + 1) := by
      intro h dst sents h' hc hsents hu
      cases sents with
      | nil =>
        rw [updEntries] at hu
        simp only [Option.some.injEq] at hu
        subst hu
        exact ⟨rfl, hc, fun b _ _ => rfl, fun x m hr => .inl hr⟩
      | cons phead rest =>
        obtain ⟨k, sv⟩ := phead
        rw [updEntries] at hu
        split at hu
        case h_2 => exact absurd hu (by simp)
        rename_i dents hldst
        split at hu
        · -- key already present at `da`
          rename_i da hlk
          split at hu
          · -- both sides dicts: nested in-place merge
            rename_i hda hsv
            split at hu
            case h_2 => exact absurd hu (by simp)
            rename_i h1 hnest
            obtain ⟨hnU, hcU, hfU, hrU⟩ := ihu h da sv h1 hc hnest
            have hdda : Reaches h dst da :=
              reaches_child hldst (lookupKey_mem _ _ _ hlk)
            refine ue_step_compose fuel ihe h h1 dst sv k rest hc hsents
              hnU hcU ?_ ?_ h' hu
            · intro b hbd hbs
              exact hfU b (fun hx => hbd (hdda.trans hx)) hbs
            · intro x m hx
              rcases hrU x m hx with hy | hy | hy
              · exact .inl hy
              · exact .inr (.inl (hdda.trans hy))
              · exact .inr (.inr hy)
          · -- not both dicts: `self[k] = v` (reference assignment)
            exact ue_write_branch fuel ihe h dst sv k rest dents _ hc hsents
              hldst
              (fun q hq => mem_setKey dents k sv q hq) h' hu
        · -- key absent: append `(k, v)` (reference assignment)
          refine ue_write_branch fuel ihe h dst sv k rest dents _ hc hsents
            hldst ?_ h' hu
          intro q hq
          rcases List.mem_append.1 hq with hq' | hq'
          · exact .inl hq'
          · exact .inr (by simpa using hq')
    refine ⟨?_, hUE⟩
    intro h dst src h' hc hu
    rw [heapUpdate] at hu
    split at hu
    case h_2 => exact absurd hu (by simp)
    rename_i sents hsrc
    have hsb := (closed_lookup _ _ _ hc hsrc).2
    have hsents : ∀ p ∈ sents, p.2 < h.next := by
      simp only [nodeBound, List.all_eq_true, decide_eq_true_eq] at hsb
      exact hsb
    obtain ⟨hn, hc', hf, hr⟩ := ihe h dst sents h' hc hsents hu
    refine ⟨hn, hc', ?_, ?_⟩
    · intro b hbd hbs
      refine hf b hbd ?_
      intro p hp hr'
      exact hbs ((reaches_child hsrc hp).trans hr')
    · intro x m hx
      rcases hr x m hx with h1 | h1 | ⟨p, hp, h1⟩
      · exact .inl h1
      · exact .inr (.inl h1)
      · exact .inr (.inr ((reaches_child hsrc hp).trans h1))

end QRendererModel

namespace QRendererModel

/-- C4: with the template entry stored as an object graph in the heap,
resolving an instance's options (fresh `Dict()`, merge in
`deepcopy(template)`, then merge `render_options` whose object graph is
the caller's own) (1) leaves every binding of the template's object graph
unchanged, (2) yields per-instance options whose object graph shares no
address with the template's, and (3) hence any later write through the
instance's options still leaves the template's bindings unchanged. -/
theorem c4_instance_options_never_alias_template (fuel : Nat) (h : Heap)
    (tmpl : Nat) (tes : List (String × Nat)) (ro : Option Nat) (h' : Heap)
    (optsRoot : Nat)
    (hc : h.closedB = true)
    (htm : h.lookup tmpl = some (.obj tes))
    (hro : ∀ r, ro = some r → r < h.next ∧
      ∀ m, Reaches h r m → ¬ Reaches h tmpl m)
    (hrun : resolveInstanceOptions fuel h tmpl ro = some (h', optsRoot)) :
    (∀ b, Reaches h tmpl b → h'.lookup b = h.lookup b) ∧
    (∀ m, Reaches h' optsRoot m → ¬ Reaches h tmpl m) ∧
    (∀ m n b, Reaches h' optsRoot m → Reaches h tmpl b →
      ((h'.write m n)).lookup b = h.lookup b) := by
  have htl : tmpl < h.next := (closed_lookup _ _ _ hc htm).1
  have hTmplLt : ∀ b, Reaches h tmpl b → b < h.next :=
    fun b hb => reaches_lt hc hb htl
  have hc0 : ((h.alloc (.obj [])).1).closedB = true := closed_alloc _ _ hc rfl
  have hpres0 : ∀ b, b < h.next →
      ((h.alloc (.obj [])).1).lookup b = h.lookup b := by
    intro b hb
    rw [lookup_alloc, if_neg (ne_of_gt hb)]
  simp only [resolveInstanceOptions] at hrun
  split at hrun
  case h_1 => exact absurd hrun (by simp)
  rename_i h1 copyA hdc
  split at hrun
  case h_1 => exact absurd hrun (by simp)
  rename_i h2 hupd1
  obtain ⟨hnD, hcD, hpD, hcA1, hcA2, hconfD⟩ := (dc_ce_spec fuel).1 _ tmpl _ _ hc0 hdc
  have hpres01 : ∀ b, b < h.next → h1.lookup b = h.lookup b := by
    intro b hb
    rw [hpD b (show b < h.next + 1 from Nat.lt_succ_of_lt hb), hpres0 b hb]
  have hoE : h1.lookup h.next = some (.obj []) := by
    rw [hpD h.next (Nat.lt_succ_self _)]
    rw [lookup_alloc, if_pos rfl]
  have hOptsOnly : ∀ m, Reaches h1 h.next m → m = h.next := by
    intro m hr
    rcases reaches_root_cases hr with rfl | ⟨es₀, hl₀, p, hp, _⟩
    · rfl
    · rw [hoE] at hl₀
      simp only [Option.some.injEq, HNode.obj.injEq] at hl₀
      subst hl₀
      exact absurd hp (List.not_mem_nil p)
  have hconfA : ∀ m, Reaches h1 copyA m → h.next + 1 ≤ m :=
    fun m hr => hconfD m hr
  obtain ⟨hn2, hc2, hf2, hr2⟩ := (hu_ue_spec fuel).1 h1 _ copyA h2 hcD hupd1
  have hF12 : ∀ b, b < h.next → h2.lookup b = h.lookup b := by
    intro b hb
    have hnd : ¬ Reaches h1 h.next b := by
      intro hx
      have := hOptsOnly b hx
      omega
    have hnc : ¬ Reaches h1 copyA b := by
      intro hx
      have := hconfA b hx
      omega
    rw [hf2 b hnd hnc, hpres01 b hb]
  have hR2 : ∀ m, Reaches h2 h.next m → m = h.next ∨ h.next + 1 ≤ m := by
    intro m hr
    rcases hr2 _ m hr with hx | hx | hx
    · exact .inl (hOptsOnly m hx)
    · exact .inl (hOptsOnly m hx)
    · exact .inr (hconfA m hx)
  have hR2T : ∀ m, Reaches h2 h.next m → ¬ Reaches h tmpl m := by
    intro m hr hx
    have hm := hTmplLt m hx
    rcases hR2 m hr with h1' | h1' <;> omega
  split at hrun
  · -- render_options is None
    simp only [Option.some.injEq, Prod.mk.injEq] at hrun
    obtain ⟨rfl, rfl⟩ := hrun
    refine ⟨fun b hb => hF12 b (hTmplLt b hb), hR2T, ?_⟩
    intro m n b hm hb
    have hne : ¬ m = b := by
      intro he
      exact hR2T m hm (he ▸ hb)
    rw [lookup_write, if_neg hne]
    exact hF12 b (hTmplLt b hb)
  · -- render_options is some r
    rename_i r
    split at hrun
    case h_1 => exact absurd hrun (by simp)
    rename_i h3 hupd2
    simp only [Option.some.injEq, Prod.mk.injEq] at hrun
    obtain ⟨rfl, rfl⟩ := hrun
    obtain ⟨hrb, hrd⟩ := hro r rfl
    obtain ⟨hn3, hc3, hf3, hr3⟩ := (hu_ue_spec fuel).1 h2 _ r h3 hc2 hupd2
    have hRS : ∀ m, Reaches h2 r m → Reaches h r m :=
      fun m hr => (reaches_of_ext hc hF12 hrb hr).1
    have hF13 : ∀ b, Reaches h tmpl b → h3.lookup b = h.lookup b := by
      intro b hb
      have hblt := hTmplLt b hb
      have hnd : ¬ Reaches h2 h.next b := by
        intro hx
        rcases hR2 b hx with h1' | h1' <;> omega
      have hnr : ¬ Reaches h2 r b := by
        intro hx
        exact hrd b (hRS b hx) hb
      rw [hf3 b hnd hnr, hF12 b hblt]
    have hR3T : ∀ m, Reaches h3 h.next m → ¬ Reaches h tmpl m := by
      intro m hr hx
      rcases hr3 _ m hr with hy | hy | hy
      · exact hR2T m hy hx
      · exact hR2T m hy hx
      · exact hrd m (hRS m hy) hx
    refine ⟨hF13, hR3T, ?_⟩
    intro m n b hm hb
    have hne : ¬ m = b := by
      intro he
      exact hR3T m hm (he ▸ hb)
    rw [lookup_write, if_neg hne]
    exact hF13 b hb

end QRendererModel

namespace QRendererModel

/-- C4 witness: on the concrete heap `hFix` (template `{size: "30um"}`
at address 0) with no override. -/
theorem c4_witness :
    (∀ b, Reaches hFix 0 b → hFix2.lookup b = hFix.lookup b) ∧
    (∀ m, Reaches hFix2 2 m → ¬ Reaches hFix 0 m) ∧
    (∀ m n b, Reaches hFix2 2 m → Reaches hFix 0 b →
      ((hFix2.write m n)).lookup b = hFix.lookup b) :=
  c4_instance_options_never_alias_template 10 hFix 0 [("size", 1)] none hFix2 2
    rfl rfl (fun _ hr => Option.noConfusion hr) rfl

end QRendererModel

namespace QRendererModel

/-- C5 witness: both halves of the amended statement evaluated on the
concrete class `gdsCls` and a fresh design. -/
theorem c5_witness :
    (∃ i1 d1 s1, qrInit gdsCls [] design0 true none none = (i1, d1, .ok s1) ∧
      s1.status = "Init Completed" ∧ s1.initiated = true ∧ s1.hookCalls = 1) ∧
    (∃ i2 d2 s2, qrInit gdsCls [] design0 false none none = (i2, d2, .ok s2) ∧
      s2.status = "Init Completed" ∧ s2.initiated = false ∧ s2.hookCalls = 0) :=
  c5_amended gdsCls [] design0 none none rfl

/-- C6 witness: evaluated on the fresh instance fixture. -/
theorem c6_witness :
    ((initate (initate inst0 false).1 false).1 = (initate inst0 false).1 ∧
     (initate (initate inst0 false).1 false).2 = false ∧
     (initate (initate inst0 false).1 false).1.hookCalls = inst0.hookCalls + 1) ∧
    (initate (initate inst0 true).1 true).1.hookCalls = inst0.hookCalls + 2 :=
  c6_hook_once_unless_reinitiate inst0 inst0 rfl

/-- C10 witness: with concrete tracing hooks, the full pass produces the
trace `[_initate_renderer, render_chips, render_components]`. -/
theorem c10_witness :
    render_design chipsHook componentsHook inst0 = .ok s3Fix ∧
    ((initate inst0 false).1).initiated = true ∧
    s3Fix.trace = inst0.trace ++
      (if inst0.initiated then [] else ["_initate_renderer"]) ++
      ["render_chips"] ++ ["render_components"] :=
  c10_render_order chipsHook componentsHook inst0 s2Fix s3Fix
    ["render_chips"] ["render_components"] rfl rfl rfl rfl

end QRendererModel
